import Mathlib

/-!
Verification of the plan-file mutation core (src/file.rs, src/date.rs, src/bin.rs).

Strings are embedded as `List Char`; Rust byte lengths (`str::len`) are computed
with `Char.utf8Size`, so widths agree with the source even on multi-byte input.
File contents are whole strings; line structure is recovered exactly the way the
source does it (split on a newline character, drop one trailing empty piece).

The filesystem side effects of the source (locking, the temp-file/rename atomic
write, template creation) are modelled by a small explicit state: the target
file and its process-unique temporary sibling, with a per-step fault oracle.
An exclusive lock is held across each whole insert (read through rename), so a
set of concurrent inserts is modelled as the sequence of inserts in the order
in which the exclusive lock was granted.
-/

namespace Plan

/-- `char::is_whitespace` from Rust: the Unicode White_Space code points.
Used by `str::trim`, which the marker predicates in src/file.rs rely on. -/
def is_rust_whitespace (c : Char) : Bool :=
  let n := c.toNat
  n = 0x09 || n = 0x0A || n = 0x0B || n = 0x0C || n = 0x0D || n = 0x20 ||
  n = 0x85 || n = 0xA0 || n = 0x1680 || (0x2000 ≤ n && n ≤ 0x200A) ||
  n = 0x2028 || n = 0x2029 || n = 0x202F || n = 0x205F || n = 0x3000

/-- Rust `str::trim`: drop leading and trailing whitespace characters. -/
def rsTrim (l : List Char) : List Char :=
  ((l.dropWhile is_rust_whitespace).reverse.dropWhile is_rust_whitespace).reverse

/-- Rust `str::len`: the length of a string in UTF-8 bytes. -/
def byteLen (l : List Char) : Nat :=
  (l.map Char.utf8Size).sum

/-- Rust `str::contains(needle)`: `needle` occurs as a contiguous substring. -/
def contains_seq (hay needle : List Char) : Bool :=
  match hay with
  | [] => needle.isEmpty
  | _ :: t => needle.isPrefixOf hay || contains_seq t needle

/-- `is_inbox_open` (src/file.rs:77-80): the trimmed line starts and ends with
`~`, contains the literal text `inbox`, and equals `inbox` once every `~` is
removed. -/
def is_inbox_open (line : List Char) : Bool :=
  let t := rsTrim line
  t.head? == some '~' && t.getLast? == some '~' && contains_seq t "inbox".toList &&
    t.filter (fun c => c != '~') == "inbox".toList

/-- `is_tilde_line` (src/file.rs:82-85): the trimmed line is non-empty and all
of its characters are `~`. -/
def is_tilde_line (line : List Char) : Bool :=
  let t := rsTrim line
  !t.isEmpty && t.all (fun c => c == '~')

/-- `make_inbox_line` (src/file.rs:69-75): center `inbox` in `width` columns
with `~` padding; the left pad is the smaller half of an odd remainder.
Nat subtraction is Rust's `saturating_sub`. -/
def make_inbox_line (width : Nat) : List Char :=
  let label := "inbox".toList
  let remaining := width - label.length
  let left := remaining / 2
  let right := remaining - left
  List.replicate left '~' ++ label ++ List.replicate right '~'

/-- Rust `str::split('\n')`: the pieces of a string between newline
characters.  An empty string yields one empty piece, like in Rust. -/
def splitNl : List Char → List (List Char)
  | [] => [[]]
  | c :: cs =>
    if c = '\n' then [] :: splitNl cs
    else
      match splitNl cs with
      | [] => [[c]]
      | l :: ls => (c :: l) :: ls

/-- The line list insert_into_inbox works on (src/file.rs:175-179): split the
content on `\n` and drop the final empty piece produced by a trailing
newline. -/
def planLines (content : List Char) : List (List Char) :=
  let ls := splitNl content
  if ls.getLast? = some [] then ls.dropLast else ls

/-- Rust `Vec<&str>::join("\n")`. -/
def joinLinesAux : List (List Char) → List Char
  | [] => []
  | [l] => l
  | l :: ls => l ++ '\n' :: joinLinesAux ls

/-- `lines.join("\n") + "\n"` — the reassembled file content with its trailing
newline (src/file.rs:216 and 232). -/
def joinLines (ls : List (List Char)) : List Char :=
  joinLinesAux ls ++ ['\n']

/-- The marker scan loop of src/file.rs:184-190: `inbox_start` is set at the
first inbox-open line; afterwards `inbox_end` is set at the first all-tilde
line. -/
def scan_loop : List (List Char) → Nat → Option Nat → Option Nat → Option Nat × Option Nat
  | [], _, s, e => (s, e)
  | l :: ls, i, s, e =>
    if s.isNone && is_inbox_open l then scan_loop ls (i + 1) (some i) e
    else if s.isSome && e.isNone && is_tilde_line l then scan_loop ls (i + 1) s (some i)
    else scan_loop ls (i + 1) s e

/-- First all-tilde line of `ls`, reported at offset `i` (the close-marker
search once an open marker has been seen). -/
def scanClose : List (List Char) → Nat → Option Nat
  | [], _ => none
  | l :: ls, i => if is_tilde_line l then some i else scanClose ls (i + 1)

/-- First inbox-open line of `ls` at offset `i`, paired with the close-marker
search over the remaining lines. -/
def scanOpen : List (List Char) → Nat → Option (Nat × Option Nat)
  | [], _ => none
  | l :: ls, i =>
    if is_inbox_open l then some (i, scanClose ls (i + 1)) else scanOpen ls (i + 1)

/-- Rust `Vec::insert(i, a)` for the in-range indices the source uses. -/
def insert_at (xs : List (List Char)) (i : Nat) (a : List Char) : List (List Char) :=
  xs.take i ++ a :: xs.drop i

/-- The pure content transformation of `insert_into_inbox`
(src/file.rs:169-246): find the markers; if both are present insert the new
line directly before the close marker, otherwise append a synthesized inbox
block (blank separator if the last line is non-empty, centered open marker of
the derived width, the new line, an all-tilde close line); rejoin with a
trailing newline. -/
def insert_into_inbox (content new_line : List Char) : List Char :=
  let lines := planLines content
  let file_needs_newline := !lines.isEmpty && !(lines.getLastD []).isEmpty
  let width := match lines.head? with
    | none => 21
    | some l => Nat.max (byteLen l) 21
  match scan_loop lines 0 none none with
  | (some _, some end_idx) => joinLines (insert_at lines end_idx new_line)
  | _ =>
    let lines1 := if file_needs_newline then lines ++ [[]] else lines
    joinLines (lines1 ++ [make_inbox_line width, new_line, List.replicate width '~'])

/-- The width the synthesis path derives (src/file.rs:195): the first line's
byte length, at least 21; 21 for an empty file. -/
def synth_width (lines : List (List Char)) : Nat :=
  match lines.head? with
  | none => 21
  | some l => Nat.max (byteLen l) 21

/-- `file_needs_newline` (src/file.rs:192): the file has a non-empty last
line, so the synthesized block is preceded by a blank separator. -/
def needs_sep (lines : List (List Char)) : Bool :=
  !lines.isEmpty && !(lines.getLastD []).isEmpty

/-- The line list produced by the synthesis path (src/file.rs:202-216). -/
def synth_lines (lines : List (List Char)) (new_line : List Char) : List (List Char) :=
  (if needs_sep lines then lines ++ [[]] else lines) ++
    [make_inbox_line (synth_width lines), new_line, List.replicate (synth_width lines) '~']

/-- A set of concurrent inserts against one file: each call holds the file's
exclusive lock from its read through its rename (src/file.rs:18-28, 169), so
the calls take effect sequentially in the order the lock was granted. -/
def runInserts (content : List Char) (callsInGrantOrder : List (List Char)) : List Char :=
  callsInGrantOrder.foldl insert_into_inbox content

/-- The filesystem state an operation can touch: the target plan file and its
process-unique `.tmp-<pid>` sibling, each either absent or holding content. -/
structure FS where
  target : Option (List Char)
  temp : Option (List Char)
deriving DecidableEq

/-- The fallible filesystem steps of one mutation: the initial read (a failed
or non-UTF-8 `read_to_string`), `File::create` of the temp file, `write_all`,
`sync_all`, and `rename`. -/
inductive FsStep
  | read
  | create
  | write
  | sync
  | rename
deriving DecidableEq

/-- `TempFileGuard` (src/file.rs:43-66): remembers whether the temp file was
persisted; its drop code runs on every exit path. -/
structure TempFileGuard where
  persist : Bool
deriving DecidableEq

/-- `Drop for TempFileGuard` (src/file.rs:60-66): remove the temp file unless
it was persisted. -/
def guard_drop (g : TempFileGuard) (fs : FS) : FS :=
  if g.persist then fs else { fs with temp := none }

/-- The atomic-write tail shared by the mutation paths (src/file.rs:218-226,
235-243 and src/date.rs:109-117): create the temp file, write the full new
content, sync, rename over the target, and only then persist the guard.  The
guard's drop runs on every exit path; `fail` injects a fault at a step. -/
def atomic_write (fs : FS) (content : List Char) (fail : FsStep → Bool) :
    Except Unit Unit × FS :=
  let g : TempFileGuard := { persist := false }
  if fail FsStep.create then (Except.error (), guard_drop g fs)
  else
    let fs1 : FS := { fs with temp := some [] }
    if fail FsStep.write then (Except.error (), guard_drop g fs1)
    else
      let fs2 : FS := { fs with temp := some content }
      if fail FsStep.sync then (Except.error (), guard_drop g fs2)
      else if fail FsStep.rename then (Except.error (), guard_drop g fs2)
      else
        let fs3 : FS := { target := some content, temp := none }
        let g1 : TempFileGuard := { g with persist := true }
        (Except.ok (), guard_drop g1 fs3)

/-- The full effectful `insert_into_inbox` call (src/file.rs:169-246): read the
target (`fail FsStep.read` models an I/O error or non-UTF-8 bytes, and a
missing target also fails the read), compute the new content in memory, then
perform the atomic write. -/
def insert_into_inbox_op (fs : FS) (new_line : List Char) (fail : FsStep → Bool) :
    Except Unit Unit × FS :=
  match fs.target with
  | none => (Except.error (), fs)
  | some bytes =>
    if fail FsStep.read then (Except.error (), fs)
    else atomic_write fs (insert_into_inbox bytes new_line) fail

/-- The two error classes `ensure_file_exists` can surface, as its caller
distinguishes them (src/bin.rs:140-154): the NotFound refusal for a past date
versus any other I/O error. -/
inductive PlanErrKind
  | notFound
  | ioError
deriving DecidableEq

/-- A calendar date as `chrono::NaiveDate` hands it to the core: a year with a
month and day in the calendar ranges. -/
structure Date where
  year : Nat
  month : Nat
  day : Nat
  month_ge : 1 ≤ month
  month_le : month ≤ 12
  day_ge : 1 ≤ day
  day_le : day ≤ 31

/-- The decimal digit character of `n % 10`. -/
def digitChar (n : Nat) : Char :=
  Char.ofNat (48 + n % 10)

/-- Decimal digits of `n`, most significant first (fuel-structured so it
evaluates by kernel reduction). -/
def natDigitsCore : Nat → Nat → List Char → List Char
  | 0, _, acc => acc
  | fuel + 1, n, acc =>
    if n < 10 then digitChar n :: acc
    else natDigitsCore fuel (n / 10) (digitChar (n % 10) :: acc)

/-- Decimal representation of `n`. -/
def natDigits (n : Nat) : List Char :=
  natDigitsCore (n + 1) n []

/-- chrono `%Y`: the year zero-padded to at least four digits. -/
def yearStr (y : Nat) : List Char :=
  List.replicate (4 - (natDigits y).length) '0' ++ natDigits y

/-- chrono `%d`: the day of month zero-padded to two digits. -/
def dayStr (d : Nat) : List Char :=
  if d < 10 then ['0', digitChar d] else natDigits d

/-- chrono `%b`: the abbreviated month name. -/
def monthAbbr (m : Nat) : List Char :=
  (["Jan", "Feb", "Mar", "Apr", "May", "Jun",
    "Jul", "Aug", "Sep", "Oct", "Nov", "Dec"].map String.toList).getD (m - 1) []

/-- Day of week of a civil date (0 = Sunday), by Sakamoto's method; this
models the weekday that `chrono::NaiveDate` carries. -/
def weekdayIdx (y m d : Nat) : Nat :=
  let t := [0, 3, 2, 5, 0, 3, 5, 1, 4, 6, 2, 4]
  let y1 := if m < 3 then y - 1 else y
  (y1 + y1 / 4 + y1 / 400 + t.getD (m - 1) 0 + d - y1 / 100) % 7

/-- chrono `%A`: the full weekday name. -/
def weekdayName (w : Nat) : List Char :=
  (["Sunday", "Monday", "Tuesday", "Wednesday", "Thursday", "Friday",
    "Saturday"].map String.toList).getD w []

/-- `date.format("%Y, %b %d - %A")` (src/date.rs:77), the header line of a new
plan file, modelled after chrono's formatter for calendar-range dates. -/
def formatLongDate (dt : Date) : List Char :=
  yearStr dt.year ++ ", ".toList ++ monthAbbr dt.month ++ " ".toList ++
    dayStr dt.day ++ " - ".toList ++ weekdayName (weekdayIdx dt.year dt.month dt.day)

/-- `generate_template` (src/date.rs:76-88): the header, an inbox open marker
centered to the header's byte width, a close line of `~` of that width, a
blank line, and `---`, each newline-terminated. -/
def generate_template (dt : Date) : List Char :=
  let formatted_date := formatLongDate dt
  let inbox_line := make_inbox_line (byteLen formatted_date)
  let close_line := List.replicate (byteLen formatted_date) '~'
  formatted_date ++ '\n' :: inbox_line ++ '\n' :: close_line ++ '\n' :: '\n' :: "---\n".toList

/-- `ensure_file_exists` (src/date.rs:91-120): succeed untouched if the target
exists; refuse with the NotFound condition if it is absent and the date is
past (`is_past` is `days_ago > 0` at the call site, src/bin.rs:141); otherwise
write the generated template through the atomic write path. -/
def ensure_file_exists (fs : FS) (dt : Date) (is_past : Bool) (fail : FsStep → Bool) :
    Except PlanErrKind Unit × FS :=
  if fs.target.isSome then (Except.ok (), fs)
  else if is_past then (Except.error PlanErrKind.notFound, fs)
  else
    match atomic_write fs (generate_template dt) fail with
    | (Except.ok _, fs1) => (Except.ok (), fs1)
    | (Except.error _, fs1) => (Except.error PlanErrKind.ioError, fs1)

/-- Lines that can sit outside the inserted block after any number of inserts:
lines of the initial file, the blank separator, or a synthesized open
marker. -/
def lineOk (initLs : List (List Char)) (l : List Char) : Prop :=
  l ∈ initLs ∨ l = [] ∨ ∃ w, 21 ≤ w ∧ l = make_inbox_line w

/-- Shape of the file after at least one insert: a prefix `A` whose first open
marker is followed by no all-tilde line inside `A`, then the inserted lines
`ins` in order, then the close marker `c`, then a suffix `B` of original
lines. -/
def Inv (initLs ins ls : List (List Char)) : Prop :=
  ∃ A c B s, ls = A ++ ins ++ c :: B ∧
    scanOpen A 0 = some (s, none) ∧
    is_tilde_line c = true ∧ '\n' ∉ c ∧
    (∀ l ∈ A, lineOk initLs l) ∧
    (∀ l ∈ B, l ∈ initLs)

/-! ### Splitting and joining lines -/

theorem splitNl_ne_nil (cs : List Char) : splitNl cs ≠ [] := by
  induction cs with
  | nil => simp [splitNl]
  | cons c cs ih =>
    simp only [splitNl]
    split
    · simp
    · split <;> simp_all

theorem mem_splitNl_no_nl (cs : List Char) : ∀ l ∈ splitNl cs, '\n' ∉ l := by
  induction cs with
  | nil => simp [splitNl]
  | cons c cs ih =>
    simp only [splitNl]
    split
    · intro l hl
      rcases List.mem_cons.mp hl with h | h
      · simp [h]
      · exact ih l h
    · rename_i hc
      cases hsp : splitNl cs with
      | nil => exact absurd hsp (splitNl_ne_nil cs)
      | cons p ps =>
        intro l hl
        rcases List.mem_cons.mp hl with h | h
        · subst h
          intro hmem
          rcases List.mem_cons.mp hmem with h | h
          · exact hc h.symm
          · exact ih p (by simp [hsp]) h
        · exact ih l (by simp [hsp, List.mem_cons, h])

theorem splitNl_no_nl (x : List Char) (h : '\n' ∉ x) : splitNl x = [x] := by
  induction x with
  | nil => rfl
  | cons c cs ih =>
    have hc : c ≠ '\n' := by intro hh; exact h (by simp [hh])
    have hcs : '\n' ∉ cs := by intro hh; exact h (by simp [hh])
    simp only [splitNl, if_neg (fun hh => hc hh), ih hcs]

theorem splitNl_append_nl (x ys : List Char) (h : '\n' ∉ x) :
    splitNl (x ++ '\n' :: ys) = x :: splitNl ys := by
  induction x with
  | nil => simp [splitNl]
  | cons c cs ih =>
    have hc : c ≠ '\n' := by intro hh; exact h (by simp [hh])
    have hcs : '\n' ∉ cs := by intro hh; exact h (by simp [hh])
    simp only [List.cons_append, splitNl, if_neg (fun hh => hc hh)]
    rw [show cs.append ('\n' :: ys) = cs ++ '\n' :: ys from rfl, ih hcs]

theorem joinLinesAux_cons (l : List Char) (ls : List (List Char)) (h : ls ≠ []) :
    joinLinesAux (l :: ls) = l ++ '\n' :: joinLinesAux ls := by
  cases ls with
  | nil => exact absurd rfl h
  | cons l2 ls2 => rfl

theorem splitNl_joinLines (ls : List (List Char)) (hne : ls ≠ [])
    (hnl : ∀ l ∈ ls, '\n' ∉ l) : splitNl (joinLines ls) = ls ++ [[]] := by
  induction ls with
  | nil => exact absurd rfl hne
  | cons l ls ih =>
    cases ls with
    | nil =>
      show splitNl (joinLinesAux [l] ++ ['\n']) = [l] ++ [[]]
      have : joinLinesAux [l] ++ ['\n'] = l ++ '\n' :: [] := by simp [joinLinesAux]
      rw [this, splitNl_append_nl l [] (hnl l (by simp))]
      rfl
    | cons l2 ls2 =>
      have hstep : joinLines (l :: l2 :: ls2) = l ++ '\n' :: joinLines (l2 :: ls2) := by
        show joinLinesAux (l :: l2 :: ls2) ++ ['\n'] = _
        rw [joinLinesAux_cons l (l2 :: ls2) (by simp)]
        simp [joinLines]
      rw [hstep, splitNl_append_nl l _ (hnl l (by simp))]
      have := ih (by simp) (fun x hx => hnl x (by simp [hx]))
      rw [this]
      simp

theorem planLines_joinLines (ls : List (List Char)) (hne : ls ≠ [])
    (hnl : ∀ l ∈ ls, '\n' ∉ l) : planLines (joinLines ls) = ls := by
  unfold planLines
  rw [splitNl_joinLines ls hne hnl]
  rw [if_pos (List.getLast?_concat ls)]
  exact List.dropLast_concat

theorem planLines_no_nl (content : List Char) : ∀ l ∈ planLines content, '\n' ∉ l := by
  intro l hl
  simp only [planLines] at hl
  split at hl
  · exact mem_splitNl_no_nl content l (List.dropLast_subset _ hl)
  · exact mem_splitNl_no_nl content l hl

theorem joinLines_getLast (ls : List (List Char)) :
    (joinLines ls).getLast? = some '\n' := by
  show (joinLinesAux ls ++ ['\n']).getLast? = some '\n'
  exact List.getLast?_concat _

/-! ### The marker scan -/

theorem scan_loop_some_some (ls : List (List Char)) (i s e : Nat) :
    scan_loop ls i (some s) (some e) = (some s, some e) := by
  induction ls generalizing i with
  | nil => rfl
  | cons l ls ih => simp [scan_loop, ih]

theorem scan_loop_some_none (ls : List (List Char)) (i s : Nat) :
    scan_loop ls i (some s) none = (some s, scanClose ls i) := by
  induction ls generalizing i with
  | nil => rfl
  | cons l ls ih =>
    simp only [scan_loop, scanClose, Option.isNone_some, Bool.false_and, Bool.false_and,
      if_neg (by simp : ¬ (false = true)), Option.isSome_some, Option.isNone_none, Bool.true_and]
    split
    · exact scan_loop_some_some ls (i + 1) s i
    · exact ih (i + 1)

theorem scan_loop_none_none (ls : List (List Char)) (i : Nat) :
    scan_loop ls i none none =
      match scanOpen ls i with
      | none => (none, none)
      | some (s, en) => (some s, en) := by
  induction ls generalizing i with
  | nil => rfl
  | cons l ls ih =>
    simp only [scan_loop, scanOpen, Option.isNone_none, Bool.true_and, Option.isSome_none,
      Bool.false_and, if_neg (by simp : ¬ (false = true))]
    split
    · rename_i hopen
      rw [scan_loop_some_none ls (i + 1) i]
    · exact ih (i + 1)

theorem scanClose_none_iff (ls : List (List Char)) (i : Nat) :
    scanClose ls i = none ↔ ∀ l ∈ ls, is_tilde_line l = false := by
  induction ls generalizing i with
  | nil => simp [scanClose]
  | cons l ls ih =>
    simp only [scanClose]
    split
    · rename_i ht
      simp only [List.mem_cons]
      constructor
      · intro h; cases h
      · intro h
        have := h l (Or.inl rfl)
        rw [ht] at this
        cases this
    · rename_i ht
      rw [ih (i + 1)]
      simp only [List.mem_cons]
      constructor
      · intro h x hx
        rcases hx with hx | hx
        · subst hx; exact Bool.eq_false_iff.mpr ht
        · exact h x hx
      · intro h x hx
        exact h x (Or.inr hx)

theorem scanOpen_none_iff (ls : List (List Char)) (i : Nat) :
    scanOpen ls i = none ↔ ∀ l ∈ ls, is_inbox_open l = false := by
  induction ls generalizing i with
  | nil => simp [scanOpen]
  | cons l ls ih =>
    simp only [scanOpen]
    split
    · rename_i ht
      simp only [List.mem_cons]
      constructor
      · intro h; cases h
      · intro h
        have := h l (Or.inl rfl)
        rw [ht] at this
        cases this
    · rename_i ht
      rw [ih (i + 1)]
      simp only [List.mem_cons]
      constructor
      · intro h x hx
        rcases hx with hx | hx
        · subst hx; exact Bool.eq_false_iff.mpr ht
        · exact h x hx
      · intro h x hx
        exact h x (Or.inr hx)

theorem scanClose_append_none (xs ys : List (List Char)) (i : Nat)
    (h : scanClose xs i = none) :
    scanClose (xs ++ ys) i = scanClose ys (i + xs.length) := by
  induction xs generalizing i with
  | nil => simp [scanClose]
  | cons x xs ih =>
    simp only [scanClose, List.cons_append, List.append_eq] at h ⊢
    split at h
    · cases h
    · rename_i ht
      rw [if_neg ht, ih (i + 1) h]
      congr 1
      simp [List.length_cons]
      omega

theorem scanOpen_append_none (xs ys : List (List Char)) (i : Nat)
    (h : scanOpen xs i = none) :
    scanOpen (xs ++ ys) i = scanOpen ys (i + xs.length) := by
  induction xs generalizing i with
  | nil => simp [scanOpen]
  | cons x xs ih =>
    simp only [scanOpen, List.cons_append, List.append_eq] at h ⊢
    split at h
    · cases h
    · rename_i ht
      rw [if_neg ht, ih (i + 1) h]
      congr 1
      simp [List.length_cons]
      omega

theorem scanOpen_append_some_none (xs ys : List (List Char)) (i s : Nat)
    (h : scanOpen xs i = some (s, none)) :
    scanOpen (xs ++ ys) i = some (s, scanClose ys (i + xs.length)) := by
  induction xs generalizing i with
  | nil => cases h
  | cons x xs ih =>
    simp only [scanOpen, List.cons_append, List.append_eq] at h ⊢
    split at h
    · rename_i ht
      rw [if_pos ht]
      injection h with h1
      injection h1 with hs hen
      subst hs
      rw [scanClose_append_none xs ys (i + 1) hen]
      have hlen : i + 1 + xs.length = i + (x :: xs).length := by
        simp only [List.length_cons]
        omega
      rw [hlen]
    · rename_i ht
      rw [if_neg ht, ih (i + 1) h]
      have hlen : i + 1 + xs.length = i + (x :: xs).length := by
        simp only [List.length_cons]
        omega
      rw [hlen]

theorem scanClose_some_decomp (ls : List (List Char)) (i e : Nat)
    (h : scanClose ls i = some e) :
    ∃ M c B, ls = M ++ c :: B ∧ e = i + M.length ∧ is_tilde_line c = true ∧
      ∀ l ∈ M, is_tilde_line l = false := by
  induction ls generalizing i with
  | nil => cases h
  | cons l ls ih =>
    simp only [scanClose] at h
    split at h
    · rename_i ht
      injection h with he
      exact ⟨[], l, ls, by simp, by simp [he.symm], ht, by simp⟩
    · rename_i ht
      obtain ⟨M, c, B, hdec, he, hc, hM⟩ := ih (i + 1) h
      refine ⟨l :: M, c, B, by simp [hdec], by simp [he]; omega, hc, ?_⟩
      intro x hx
      rcases List.mem_cons.mp hx with hx | hx
      · subst hx; exact Bool.eq_false_iff.mpr ht
      · exact hM x hx

theorem scanOpen_some_decomp (ls : List (List Char)) (i s : Nat) (en : Option Nat)
    (h : scanOpen ls i = some (s, en)) :
    ∃ A o R, ls = A ++ o :: R ∧ s = i + A.length ∧ is_inbox_open o = true ∧
      (∀ l ∈ A, is_inbox_open l = false) ∧ en = scanClose R (s + 1) := by
  induction ls generalizing i with
  | nil => cases h
  | cons l ls ih =>
    simp only [scanOpen] at h
    split at h
    · rename_i ht
      injection h with h1
      injection h1 with hs hen
      subst hs
      exact ⟨[], l, ls, by simp, by simp, ht, by simp, hen.symm⟩
    · rename_i ht
      obtain ⟨A, o, R, hdec, hs, ho, hA, hen⟩ := ih (i + 1) h
      refine ⟨l :: A, o, R, by simp [hdec], by simp [hs]; omega, ho, ?_, hen⟩
      intro x hx
      rcases List.mem_cons.mp hx with hx | hx
      · subst hx; exact Bool.eq_false_iff.mpr ht
      · exact hA x hx

theorem insert_at_append (A B : List (List Char)) (a : List Char) :
    insert_at (A ++ B) A.length a = A ++ a :: B := by
  unfold insert_at
  rw [List.take_left, List.drop_left]

/-! ### Marker predicates on concrete line shapes -/

theorem dropWhile_eq_self_of (p : Char → Bool) (l : List Char)
    (h : ∀ c ∈ l, p c = false) : l.dropWhile p = l := by
  cases l with
  | nil => rfl
  | cons c cs =>
    rw [List.dropWhile_cons, if_neg]
    simp [h c (by simp)]

theorem rsTrim_eq_self (l : List Char) (h : ∀ c ∈ l, is_rust_whitespace c = false) :
    rsTrim l = l := by
  unfold rsTrim
  rw [dropWhile_eq_self_of _ l h]
  rw [dropWhile_eq_self_of _ l.reverse (fun c hc => h c (List.mem_reverse.mp hc))]
  exact List.reverse_reverse l

theorem inbox_chars_no_ws : ∀ c ∈ "inbox".toList, is_rust_whitespace c = false := by
  decide

theorem no_nl_inbox_chars : '\n' ∉ "inbox".toList := by
  decide

theorem shape_no_ws (a b : Nat) :
    ∀ c ∈ List.replicate a '~' ++ "inbox".toList ++ List.replicate b '~',
      is_rust_whitespace c = false := by
  intro c hc
  simp only [List.mem_append, List.mem_replicate] at hc
  rcases hc with (hc | hc) | hc
  · rw [hc.2]; decide
  · exact inbox_chars_no_ws c hc
  · rw [hc.2]; decide

theorem contains_seq_iff (hay needle : List Char) :
    contains_seq hay needle = true ↔ needle <:+: hay := by
  induction hay with
  | nil =>
    simp only [contains_seq, List.isEmpty_iff]
    constructor
    · intro h; subst h; exact List.nil_infix
    · intro h
      simpa using List.eq_nil_of_infix_nil h
  | cons c t ih =>
    simp only [contains_seq, Bool.or_eq_true, List.isPrefixOf_iff_prefix, ih,
      List.infix_cons_iff]

theorem tilde_filter_nil (a : Nat) :
    (List.replicate a '~').filter (fun c => c != '~') = [] := by
  apply List.filter_eq_nil_iff.mpr
  intro c hc
  simp [List.eq_of_mem_replicate hc]

/-- Any line of the exact shape `~…~inbox~…~` (with at least one tilde on each
side) satisfies the source's open-marker predicate. -/
theorem is_inbox_open_shape (a b : Nat) (ha : 1 ≤ a) (hb : 1 ≤ b) :
    is_inbox_open (List.replicate a '~' ++ "inbox".toList ++ List.replicate b '~') = true := by
  have htrim := rsTrim_eq_self _ (shape_no_ws a b)
  unfold is_inbox_open
  rw [htrim]
  simp only [Bool.and_eq_true]
  refine ⟨⟨⟨?_, ?_⟩, ?_⟩, ?_⟩
  · obtain ⟨a1, rfl⟩ : ∃ a1, a = a1 + 1 := ⟨a - 1, by omega⟩
    simp [List.replicate_succ]
  · obtain ⟨b1, rfl⟩ : ∃ b1, b = b1 + 1 := ⟨b - 1, by omega⟩
    rw [List.replicate_succ', ← List.append_assoc, List.getLast?_concat]
    simp
  · rw [contains_seq_iff]
    exact ⟨List.replicate a '~', List.replicate b '~', by simp⟩
  · simp only [List.append_assoc, List.filter_append, tilde_filter_nil]
    simp only [List.append_nil, List.nil_append]
    decide

theorem make_inbox_line_eq (w : Nat) :
    make_inbox_line w =
      List.replicate ((w - 5) / 2) '~' ++ "inbox".toList ++
        List.replicate ((w - 5) - (w - 5) / 2) '~' := by
  unfold make_inbox_line
  norm_num

theorem is_inbox_open_make (w : Nat) (h : 7 ≤ w) :
    is_inbox_open (make_inbox_line w) = true := by
  rw [make_inbox_line_eq]
  exact is_inbox_open_shape _ _ (by omega) (by omega)

theorem make_inbox_line_no_ws (w : Nat) :
    ∀ c ∈ make_inbox_line w, is_rust_whitespace c = false := by
  rw [make_inbox_line_eq]
  exact shape_no_ws _ _

theorem is_tilde_line_make_false (w : Nat) :
    is_tilde_line (make_inbox_line w) = false := by
  have htrim := rsTrim_eq_self (make_inbox_line w) (make_inbox_line_no_ws w)
  have hi : 'i' ∈ make_inbox_line w := by
    rw [make_inbox_line_eq]
    simp
  unfold is_tilde_line
  rw [htrim]
  cases hall : (make_inbox_line w).all (fun c => c == '~') with
  | false => simp [hall]
  | true =>
    have := List.all_eq_true.mp hall 'i' hi
    simp at this

theorem replicate_tilde_no_ws (w : Nat) :
    ∀ c ∈ List.replicate w '~', is_rust_whitespace c = false := by
  intro c hc
  rw [List.eq_of_mem_replicate hc]
  decide

theorem is_tilde_line_replicate (w : Nat) (h : 1 ≤ w) :
    is_tilde_line (List.replicate w '~') = true := by
  have htrim := rsTrim_eq_self _ (replicate_tilde_no_ws w)
  unfold is_tilde_line
  rw [htrim]
  simp only [Bool.and_eq_true]
  constructor
  · cases w with
    | zero => omega
    | succ n => simp [List.replicate_succ]
  · apply List.all_eq_true.mpr
    intro c hc
    simp [List.eq_of_mem_replicate hc]

theorem no_nl_make_inbox_line (w : Nat) : '\n' ∉ make_inbox_line w := by
  rw [make_inbox_line_eq]
  intro h
  simp only [List.mem_append, List.mem_replicate] at h
  rcases h with (h | h) | h
  · cases h.2
  · exact no_nl_inbox_chars h
  · cases h.2

theorem no_nl_replicate_tilde (w : Nat) : '\n' ∉ List.replicate w '~' := by
  intro h
  cases List.eq_of_mem_replicate h

theorem is_inbox_open_nil : is_inbox_open [] = false := by decide

theorem is_tilde_line_nil : is_tilde_line [] = false := by decide

/-! ### Branch behaviour of insert_into_inbox -/

theorem insert_eq_found (content new : List Char) (s e : Nat)
    (h : scanOpen (planLines content) 0 = some (s, some e)) :
    insert_into_inbox content new = joinLines (insert_at (planLines content) e new) := by
  have hsl : scan_loop (planLines content) 0 none none = (some s, some e) := by
    rw [scan_loop_none_none, h]
  simp only [insert_into_inbox]
  rw [hsl]

theorem insert_eq_synth_none (content new : List Char)
    (h : scanOpen (planLines content) 0 = none) :
    insert_into_inbox content new = joinLines (synth_lines (planLines content) new) := by
  have hsl : scan_loop (planLines content) 0 none none = (none, none) := by
    rw [scan_loop_none_none, h]
  simp only [insert_into_inbox]
  rw [hsl]
  rfl

theorem insert_eq_synth_dangling (content new : List Char) (s : Nat)
    (h : scanOpen (planLines content) 0 = some (s, none)) :
    insert_into_inbox content new = joinLines (synth_lines (planLines content) new) := by
  have hsl : scan_loop (planLines content) 0 none none = (some s, none) := by
    rw [scan_loop_none_none, h]
  simp only [insert_into_inbox]
  rw [hsl]
  rfl

theorem synth_width_ge (lines : List (List Char)) : 21 ≤ synth_width lines := by
  unfold synth_width
  cases lines.head? with
  | none => exact Nat.le.refl
  | some l => exact Nat.le_max_right _ _

theorem synth_lines_decomp (lines : List (List Char)) (new : List Char) :
    synth_lines lines new =
      ((if needs_sep lines then lines ++ [[]] else lines) ++
          [make_inbox_line (synth_width lines)]) ++
        [new] ++ List.replicate (synth_width lines) '~' :: [] := by
  unfold synth_lines
  simp

/-! ### The insert invariant -/

theorem inv_step (initLs ins ls : List (List Char)) (new : List Char)
    (hInv : Inv initLs ins ls)
    (hno : ∀ l ∈ ls, '\n' ∉ l)
    (hins : ∀ l ∈ ins, is_tilde_line l = false) :
    ∃ ls2, insert_into_inbox (joinLines ls) new = joinLines ls2 ∧
      Inv initLs (ins ++ [new]) ls2 ∧ ∀ l ∈ ls2, l ∈ ls ∨ l = new := by
  obtain ⟨A, c, B, s, hls, hscanA, hc, hcnl, hAok, hB⟩ := hInv
  have hne : ls ≠ [] := by
    rw [hls]; simp
  have hpl : planLines (joinLines ls) = ls := planLines_joinLines ls hne hno
  have hpart : ls = A ++ (ins ++ c :: B) := by rw [hls, List.append_assoc]
  have h1 : scanOpen ls 0 = some (s, scanClose (ins ++ c :: B) (0 + A.length)) := by
    rw [hpart]
    exact scanOpen_append_some_none A (ins ++ c :: B) 0 s hscanA
  have h2 : scanClose (ins ++ c :: B) (0 + A.length) =
      scanClose (c :: B) (0 + A.length + ins.length) :=
    scanClose_append_none ins (c :: B) _ ((scanClose_none_iff _ _).mpr hins)
  have h3 : scanClose (c :: B) (0 + A.length + ins.length) =
      some (0 + A.length + ins.length) := by
    unfold scanClose
    rw [if_pos hc]
  have hscan : scanOpen (planLines (joinLines ls)) 0 = some (s, some (A.length + ins.length)) := by
    rw [hpl, h1, h2, h3]
    norm_num
  have heq := insert_eq_found (joinLines ls) new s (A.length + ins.length) hscan
  rw [hpl] at heq
  have hform : ls = (A ++ ins) ++ (c :: B) := by rw [hls]
  have hia : insert_at ls (A.length + ins.length) new = (A ++ ins) ++ new :: c :: B := by
    rw [hform, show A.length + ins.length = (A ++ ins).length by simp]
    exact insert_at_append (A ++ ins) (c :: B) new
  refine ⟨A ++ (ins ++ [new]) ++ c :: B, ?_, ?_, ?_⟩
  · rw [heq, hia]
    congr 1
    simp
  · exact ⟨A, c, B, s, rfl, hscanA, hc, hcnl, hAok, hB⟩
  · intro l hl
    rw [hls]
    simp only [List.mem_append, List.mem_cons] at hl ⊢
    tauto

theorem scanOpen_single_make (w i : Nat) (h : 7 ≤ w) :
    scanOpen [make_inbox_line w] i = some (i, none) := by
  unfold scanOpen
  rw [if_pos (is_inbox_open_make w h)]
  rfl

theorem synth_scanA (lines : List (List Char))
    (h : scanOpen lines 0 = none ∨ ∃ s, scanOpen lines 0 = some (s, none)) :
    ∃ s2, scanOpen ((if needs_sep lines then lines ++ [[]] else lines) ++
        [make_inbox_line (synth_width lines)]) 0 = some (s2, none) := by
  have hpad : (if needs_sep lines then lines ++ [[]] else lines) =
      lines ++ (if needs_sep lines then [[]] else []) := by
    cases needs_sep lines <;> simp
  have hpadmem : ∀ l ∈ (if needs_sep lines then [[]] else ([] : List (List Char))), l = [] := by
    cases needs_sep lines <;> simp
  have hw : 7 ≤ synth_width lines := le_trans (by omega) (synth_width_ge lines)
  rw [hpad]
  rcases h with h | ⟨s, h⟩
  · have hno : ∀ l ∈ lines ++ (if needs_sep lines then [[]] else []),
        is_inbox_open l = false := by
      intro l hl
      rcases List.mem_append.mp hl with hl | hl
      · exact (scanOpen_none_iff lines 0).mp h l hl
      · rw [hpadmem l hl]; exact is_inbox_open_nil
    have hnone : scanOpen (lines ++ (if needs_sep lines then [[]] else [])) 0 = none :=
      (scanOpen_none_iff _ 0).mpr hno
    rw [scanOpen_append_none _ _ 0 hnone, scanOpen_single_make _ _ hw]
    exact ⟨_, rfl⟩
  · obtain ⟨A0, o, R, hdec, hs, ho, hA0, hen⟩ := scanOpen_some_decomp lines 0 s none h
    have hcloseR : scanClose R (s + 1) = none := hen.symm
    have hRnotilde := (scanClose_none_iff R (s + 1)).mp hcloseR
    have hshape : (lines ++ (if needs_sep lines then [[]] else [])) ++
          [make_inbox_line (synth_width lines)] =
        A0 ++ (o :: (R ++ ((if needs_sep lines then [[]] else []) ++
          [make_inbox_line (synth_width lines)]))) := by
      rw [hdec]
      simp
    rw [hshape]
    have hA0none : scanOpen A0 0 = none := (scanOpen_none_iff A0 0).mpr hA0
    rw [scanOpen_append_none A0 _ 0 hA0none]
    unfold scanOpen
    rw [if_pos ho]
    have hclose2 : scanClose (R ++ ((if needs_sep lines then [[]] else []) ++
        [make_inbox_line (synth_width lines)])) (0 + A0.length + 1) = none := by
      apply (scanClose_none_iff _ _).mpr
      intro l hl
      rcases List.mem_append.mp hl with hl | hl
      · exact hRnotilde l hl
      · rcases List.mem_append.mp hl with hl | hl
        · rw [hpadmem l hl]; exact is_tilde_line_nil
        · rw [List.mem_singleton.mp hl]; exact is_tilde_line_make_false _
    rw [hclose2]
    exact ⟨_, rfl⟩

theorem mem_parts (X B : List (List Char)) (y c l : List Char)
    (h : l ∈ X ++ [y] ++ c :: B) : l ∈ X ∨ l = y ∨ l = c ∨ l ∈ B := by
  rcases List.mem_append.mp h with h | h
  · rcases List.mem_append.mp h with h | h
    · exact Or.inl h
    · exact Or.inr (Or.inl (List.mem_singleton.mp h))
  · rcases List.mem_cons.mp h with h | h
    · exact Or.inr (Or.inr (Or.inl h))
    · exact Or.inr (Or.inr (Or.inr h))

theorem memA_synth (lines : List (List Char)) (l : List Char)
    (h : l ∈ (if needs_sep lines then lines ++ [[]] else lines) ++
      [make_inbox_line (synth_width lines)]) :
    l ∈ lines ∨ l = [] ∨ l = make_inbox_line (synth_width lines) := by
  rcases List.mem_append.mp h with h | h
  · cases hsep : needs_sep lines
    · simp only [hsep, if_neg (by simp : ¬ (false = true))] at h
      exact Or.inl h
    · simp only [hsep, if_pos rfl] at h
      rcases List.mem_append.mp h with h | h
      · exact Or.inl h
      · exact Or.inr (Or.inl (List.mem_singleton.mp h))
  · exact Or.inr (Or.inr (List.mem_singleton.mp h))

theorem insert_base (content new : List Char)
    (hnl_new : '\n' ∉ new) :
    ∃ ls2, insert_into_inbox content new = joinLines ls2 ∧
      Inv (planLines content) [new] ls2 ∧ ∀ l ∈ ls2, '\n' ∉ l := by
  have hInitNl := planLines_no_nl content
  have hsynth : (scanOpen (planLines content) 0 = none ∨
      ∃ s, scanOpen (planLines content) 0 = some (s, none)) →
      ∃ ls2, insert_into_inbox content new = joinLines ls2 ∧
        Inv (planLines content) [new] ls2 ∧ ∀ l ∈ ls2, '\n' ∉ l := by
    intro hcase
    have heq : insert_into_inbox content new =
        joinLines (synth_lines (planLines content) new) := by
      rcases hcase with h | ⟨s, h⟩
      · exact insert_eq_synth_none content new h
      · exact insert_eq_synth_dangling content new s h
    obtain ⟨s2, hscanA⟩ := synth_scanA (planLines content) hcase
    have hw21 := synth_width_ge (planLines content)
    refine ⟨((if needs_sep (planLines content) then planLines content ++ [[]]
          else planLines content) ++
        [make_inbox_line (synth_width (planLines content))]) ++ [new] ++
        List.replicate (synth_width (planLines content)) '~' :: [], ?_, ?_, ?_⟩
    · rw [heq, synth_lines_decomp]
    · refine ⟨_, _, _, s2, rfl, hscanA, is_tilde_line_replicate _ (by omega),
        no_nl_replicate_tilde _, ?_, by simp⟩
      intro l hl
      rcases memA_synth (planLines content) l hl with h | h | h
      · exact Or.inl h
      · exact Or.inr (Or.inl h)
      · exact Or.inr (Or.inr ⟨synth_width (planLines content), hw21, h⟩)
    · intro l hl
      rcases mem_parts _ [] _ _ l hl with h | h | h | h
      · rcases memA_synth (planLines content) l h with h2 | h2 | h2
        · exact hInitNl l h2
        · rw [h2]; simp
        · rw [h2]; exact no_nl_make_inbox_line _
      · rw [h]; exact hnl_new
      · rw [h]; exact no_nl_replicate_tilde _
      · cases h
  cases hscan : scanOpen (planLines content) 0 with
  | none => exact hsynth (Or.inl hscan)
  | some p =>
    obtain ⟨s, en⟩ := p
    cases en with
    | none => exact hsynth (Or.inr ⟨s, hscan⟩)
    | some e =>
      obtain ⟨A0, o, R, hdec, hs, ho, hA0, hen⟩ :=
        scanOpen_some_decomp (planLines content) 0 s (some e) hscan
      have hcloseR : scanClose R (s + 1) = some e := hen.symm
      obtain ⟨M, c, B, hR, he, hct, hMnotilde⟩ := scanClose_some_decomp R (s + 1) e hcloseR
      have hA0none : scanOpen A0 0 = none := (scanOpen_none_iff A0 0).mpr hA0
      have hlen : e = (A0 ++ o :: M).length := by
        simp only [List.length_append, List.length_cons]
        omega
      have hshape : planLines content = (A0 ++ o :: M) ++ (c :: B) := by
        rw [hdec, hR]
        simp
      have heq := insert_eq_found content new s e hscan
      have hia : insert_at (planLines content) e new = (A0 ++ o :: M) ++ new :: c :: B := by
        rw [hshape, hlen]
        exact insert_at_append (A0 ++ o :: M) (c :: B) new
      have hcmem : c ∈ planLines content := by
        rw [hshape]
        simp
      refine ⟨(A0 ++ o :: M) ++ [new] ++ c :: B, ?_, ?_, ?_⟩
      · rw [heq, hia]
        congr 1
        simp
      · have hscanAOM : scanOpen (A0 ++ o :: M) 0 = some (s, none) := by
          rw [scanOpen_append_none A0 (o :: M) 0 hA0none]
          unfold scanOpen
          rw [if_pos ho]
          rw [(scanClose_none_iff M (0 + A0.length + 1)).mpr hMnotilde]
          rw [hs]
        refine ⟨A0 ++ o :: M, c, B, s, rfl, hscanAOM, hct, hInitNl c hcmem, ?_, ?_⟩
        · intro l hl
          apply Or.inl
          rw [hshape]
          exact List.mem_append.mpr (Or.inl hl)
        · intro l hl
          rw [hshape]
          simp [hl]
      · intro l hl
        rcases mem_parts _ B _ _ l hl with h | h | h | h
        · exact hInitNl l (by rw [hshape]; exact List.mem_append.mpr (Or.inl h))
        · rw [h]; exact hnl_new
        · rw [h]; exact hInitNl c hcmem
        · exact hInitNl l (by rw [hshape]; simp [h])

theorem run_inv (initLs : List (List Char)) :
    ∀ (L : List (List Char)), ∀ (ins ls : List (List Char)), Inv initLs ins ls →
      (∀ l ∈ ls, '\n' ∉ l) →
      (∀ l ∈ ins, is_tilde_line l = false) →
      (∀ l ∈ L, is_tilde_line l = false ∧ '\n' ∉ l) →
      ∃ ls2, List.foldl insert_into_inbox (joinLines ls) L = joinLines ls2 ∧
        Inv initLs (ins ++ L) ls2 ∧ ∀ l ∈ ls2, '\n' ∉ l := by
  intro L
  induction L with
  | nil =>
    intro ins ls hInv hno hins hL
    exact ⟨ls, rfl, by simpa using hInv, hno⟩
  | cons x L ih =>
    intro ins ls hInv hno hins hL
    obtain ⟨ls1, heq1, hInv1, hmem1⟩ := inv_step initLs ins ls x hInv hno hins
    have hno1 : ∀ l ∈ ls1, '\n' ∉ l := by
      intro l hl
      rcases hmem1 l hl with h | h
      · exact hno l h
      · rw [h]; exact (hL x (by simp)).2
    have hins1 : ∀ l ∈ ins ++ [x], is_tilde_line l = false := by
      intro l hl
      rcases List.mem_append.mp hl with h | h
      · exact hins l h
      · rw [List.mem_singleton.mp h]
        exact (hL x (by simp)).1
    obtain ⟨ls2, heq2, hInv2, hno2⟩ :=
      ih (ins ++ [x]) ls1 hInv1 hno1 hins1 (fun l hl => hL l (by simp [hl]))
    refine ⟨ls2, ?_, ?_, hno2⟩
    · rw [List.foldl_cons, heq1, heq2]
    · simpa using hInv2

theorem count_one_of_nodup (L : List (List Char)) (a : List Char)
    (hN : L.Nodup) (ha : a ∈ L) : L.count a = 1 := by
  induction L with
  | nil => cases ha
  | cons x L ih =>
    rw [List.count_cons]
    rcases List.mem_cons.mp ha with h | h
    · subst h
      rw [List.count_eq_zero.mpr (List.nodup_cons.mp hN).1]
      simp
    · rw [ih (List.nodup_cons.mp hN).2 h]
      have hne : a ≠ x := fun hax => (List.nodup_cons.mp hN).1 (hax ▸ h)
      simp [Ne.symm hne]

/-- C1 (amended): if every inserted line is newline-free, non-empty, not
itself an all-tilde line, not itself an open-marker line, not already a line
of the file, and the inserted lines are pairwise distinct, then after a set of
concurrent lock-serialized inserts the final file contains the inserted lines
as a consecutive run in exactly the lock-grant order, and each inserted line
occurs exactly once in the whole file. -/
theorem C1_concurrent_inserts (content : List Char) (L : List (List Char))
    (hnd : L.Nodup)
    (hL : ∀ l ∈ L, '\n' ∉ l ∧ l ≠ [] ∧ is_tilde_line l = false ∧
      is_inbox_open l = false ∧ l ∉ planLines content) :
    ∃ A B, planLines (runInserts content L) = A ++ L ++ B ∧
      ∀ l ∈ L, (planLines (runInserts content L)).count l = 1 := by
  cases L with
  | nil =>
    refine ⟨planLines content, [], by simp [runInserts], ?_⟩
    intro l hl
    cases hl
  | cons x L =>
    have hx := hL x (by simp)
    obtain ⟨ls1, heq1, hInv1, hno1⟩ := insert_base content x hx.1
    obtain ⟨ls2, heq2, hInv2, hno2⟩ :=
      run_inv (planLines content) L [x] ls1 hInv1 hno1
        (by intro l hl; rw [List.mem_singleton.mp hl]; exact hx.2.2.1)
        (by intro l hl
            have := hL l (by simp [hl])
            exact ⟨this.2.2.1, this.1⟩)
    have hrun : runInserts content (x :: L) = joinLines ls2 := by
      show List.foldl insert_into_inbox content (x :: L) = joinLines ls2
      rw [List.foldl_cons, heq1, heq2]
    obtain ⟨A, c, B, sIdx, hshape, hscanA, hct, hcnl, hAok, hB⟩ := hInv2
    have hne2 : ls2 ≠ [] := by
      rw [hshape]
      simp
    have hpl2 : planLines (runInserts content (x :: L)) = ls2 := by
      rw [hrun]
      exact planLines_joinLines ls2 hne2 hno2
    have hshape2 : ls2 = A ++ (x :: L) ++ c :: B := by
      rw [hshape]
      rfl
    refine ⟨A, c :: B, by rw [hpl2, hshape2], ?_⟩
    intro l hl
    have hlprops := hL l hl
    rw [hpl2, hshape2, List.count_append, List.count_append]
    have hcA : List.count l A = 0 := by
      apply List.count_eq_zero.mpr
      intro hmem
      rcases hAok l hmem with h | h | ⟨w, hw, h⟩
      · exact hlprops.2.2.2.2 h
      · exact hlprops.2.1 h
      · have : is_inbox_open l = true := by
          rw [h]
          exact is_inbox_open_make w (by omega)
        rw [hlprops.2.2.2.1] at this
        cases this
    have hcB : List.count l (c :: B) = 0 := by
      apply List.count_eq_zero.mpr
      intro hmem
      rcases List.mem_cons.mp hmem with h | h
      · rw [h] at hlprops
        rw [hlprops.2.2.1] at hct
        cases hct
      · exact hlprops.2.2.2.2 (hB l h)
    rw [hcA, hcB, count_one_of_nodup (x :: L) l hnd hl]

/-- C1 counterexample: concurrent inserts are serialized and preserved, but
the final order can disagree with the lock-grant order when an inserted line
is itself an all-tilde line.  Here `"~~~"` is inserted first and `"b"` second,
yet `"b"` ends up above `"~~~"` in the file, so the file order is not
consistent with the grant order. -/
theorem C1_concurrent_inserts_cex :
    runInserts "Header\n~~inbox~~\n~~~~~~\n".toList ["~~~".toList, "b".toList] =
      "Header\n~~inbox~~\nb\n~~~\n~~~~~~\n".toList ∧
    (planLines (runInserts "Header\n~~inbox~~\n~~~~~~\n".toList
        ["~~~".toList, "b".toList])).indexOf "b".toList <
      (planLines (runInserts "Header\n~~inbox~~\n~~~~~~\n".toList
        ["~~~".toList, "b".toList])).indexOf "~~~".toList := by
  constructor
  · decide
  · decide

/-- Witness for C1: two ordinary task lines inserted concurrently into a
well-formed file land consecutively, in grant order, each exactly once. -/
theorem C1_concurrent_inserts_witness :
    ∃ A B, planLines (runInserts "Header\n~~inbox~~\n~~~~~~\n".toList
        ["* a".toList, "* b".toList]) = A ++ ["* a".toList, "* b".toList] ++ B ∧
      ∀ l ∈ ["* a".toList, "* b".toList],
        (planLines (runInserts "Header\n~~inbox~~\n~~~~~~\n".toList
          ["* a".toList, "* b".toList])).count l = 1 :=
  C1_concurrent_inserts "Header\n~~inbox~~\n~~~~~~\n".toList
    ["* a".toList, "* b".toList] (by decide) (by decide)

/-! ### Indexed access helpers -/

theorem getD_append_lt (X Y : List (List Char)) (i : Nat) (d : List Char)
    (h : i < X.length) : (X ++ Y).getD i d = X.getD i d := by
  simp [List.getD_eq_getElem?_getD, List.getElem?_append, h]

theorem getD_append_boundary (X B : List (List Char)) (c d : List Char) :
    (X ++ c :: B).getD X.length d = c := by
  simp [List.getD_eq_getElem?_getD, List.getElem?_append_right (Nat.le_refl X.length)]

theorem getD_append_ge (X Y : List (List Char)) (j : Nat) (d : List Char)
    (h : X.length ≤ j) : (X ++ Y).getD j d = Y.getD (j - X.length) d := by
  simp [List.getD_eq_getElem?_getD, List.getElem?_append_right h]

theorem getD_mem (l : List (List Char)) (i : Nat) (d : List Char)
    (h : i < l.length) : l.getD i d ∈ l := by
  rw [List.getD_eq_getElem?_getD, List.getElem?_eq_getElem h]
  exact List.getElem_mem h

/-- C2: whenever the file's lines contain an open marker at some position `i`
followed by a later all-tilde line at some position `j`, the scan succeeds at
some close index `e`; the insert rewrites the file as exactly the lines before
`e`, then the new line, then the lines from `e` on (so every line outside the
block is unchanged and exactly one line is added, directly before the
close-marker line, which is an all-tilde line), the result carries a trailing
newline, and on the concrete file `"Header\n~~inbox~~\n~~~~~~\n"` inserting
`"* task"` yields `"Header\n~~inbox~~\n* task\n~~~~~~\n"`. -/
theorem C2_insert_before_close (content new : List Char) (i j : Nat)
    (hij : i < j) (hj : j < (planLines content).length)
    (hopen : is_inbox_open ((planLines content).getD i []) = true)
    (hclose : is_tilde_line ((planLines content).getD j []) = true) :
    (∃ s e, scanOpen (planLines content) 0 = some (s, some e) ∧
      insert_into_inbox content new =
        joinLines ((planLines content).take e ++ new :: (planLines content).drop e) ∧
      is_tilde_line ((planLines content).getD e []) = true ∧
      (insert_into_inbox content new).getLast? = some '\n') ∧
    insert_into_inbox "Header\n~~inbox~~\n~~~~~~\n".toList "* task".toList =
      "Header\n~~inbox~~\n* task\n~~~~~~\n".toList := by
  refine ⟨?_, by decide⟩
  cases hscan : scanOpen (planLines content) 0 with
  | none =>
    have := (scanOpen_none_iff (planLines content) 0).mp hscan _
      (getD_mem (planLines content) i [] (lt_trans hij hj))
    rw [hopen] at this
    cases this
  | some p =>
    obtain ⟨s, en⟩ := p
    obtain ⟨A0, o, R, hdec, hs, ho, hA0, hen⟩ :=
      scanOpen_some_decomp (planLines content) 0 s en hscan
    have hsi : A0.length ≤ i := by
      by_contra hlt
      push_neg at hlt
      have hmemA : (planLines content).getD i [] ∈ A0 := by
        rw [hdec, getD_append_lt A0 (o :: R) i [] hlt]
        exact getD_mem A0 i [] hlt
      have := hA0 _ hmemA
      rw [hopen] at this
      cases this
    cases en with
    | none =>
      exfalso
      have hcloseR : scanClose R (s + 1) = none := hen.symm
      have hRnotilde := (scanClose_none_iff R (s + 1)).mp hcloseR
      have hjR : (planLines content).getD j [] ∈ R := by
        have hge : A0.length + 1 ≤ j := by omega
        rw [hdec] at hj ⊢
        rw [getD_append_ge A0 (o :: R) j [] (by omega)]
        have hj2 : j - A0.length < (o :: R).length := by
          simp only [List.length_append] at hj
          omega
        obtain ⟨k, hk⟩ : ∃ k, j - A0.length = k + 1 := ⟨j - A0.length - 1, by omega⟩
        rw [hk]
        have : (o :: R).getD (k + 1) [] = R.getD k [] := by simp
        rw [this]
        exact getD_mem R k [] (by simp [List.length_cons] at hj2; omega)
      have := hRnotilde _ hjR
      rw [hclose] at this
      cases this
    | some e =>
      have hcloseR : scanClose R (s + 1) = some e := hen.symm
      obtain ⟨M, c, B, hR, he, hct, hMnotilde⟩ := scanClose_some_decomp R (s + 1) e hcloseR
      have hlen : e = (A0 ++ o :: M).length := by
        simp only [List.length_append, List.length_cons]
        omega
      have hshape : planLines content = (A0 ++ o :: M) ++ (c :: B) := by
        rw [hdec, hR]
        simp
      have heq := insert_eq_found content new s e hscan
      refine ⟨s, e, rfl, ?_, ?_, ?_⟩
      · exact heq
      · rw [hshape, hlen, getD_append_boundary]
        exact hct
      · rw [heq]
        exact joinLines_getLast _

/-- Witness for C2 at the concrete file of the claim's scenario. -/
theorem C2_insert_before_close_witness :
    (∃ s e, scanOpen (planLines "Header\n~~inbox~~\n~~~~~~\n".toList) 0 = some (s, some e) ∧
      insert_into_inbox "Header\n~~inbox~~\n~~~~~~\n".toList "* task".toList =
        joinLines ((planLines "Header\n~~inbox~~\n~~~~~~\n".toList).take e ++
          "* task".toList :: (planLines "Header\n~~inbox~~\n~~~~~~\n".toList).drop e) ∧
      is_tilde_line ((planLines "Header\n~~inbox~~\n~~~~~~\n".toList).getD e []) = true ∧
      (insert_into_inbox "Header\n~~inbox~~\n~~~~~~\n".toList "* task".toList).getLast? =
        some '\n') ∧
    insert_into_inbox "Header\n~~inbox~~\n~~~~~~\n".toList "* task".toList =
      "Header\n~~inbox~~\n* task\n~~~~~~\n".toList :=
  C2_insert_before_close "Header\n~~inbox~~\n~~~~~~\n".toList "* task".toList 1 2
    (by decide) (by decide) (by decide) (by decide)

/-! ### The synthesis path: C3 and C9 -/

theorem if_pad_eq (lines : List (List Char)) :
    (if needs_sep lines then lines ++ [[]] else lines) =
      lines ++ (if needs_sep lines then [[]] else []) := by
  cases needs_sep lines <;> simp

theorem needs_sep_iff (lines : List (List Char)) :
    needs_sep lines = true ↔ lines ≠ [] ∧ lines.getLast? ≠ some [] := by
  unfold needs_sep
  cases lines with
  | nil => simp
  | cons x xs =>
    have hne : x :: xs ≠ [] := by simp
    have h2 : (x :: xs).getLastD [] = (x :: xs).getLast hne := by
      rw [List.getLastD_eq_getLast?, List.getLast?_eq_getLast _ hne]
      rfl
    have h3 : (x :: xs).getLast? = some ((x :: xs).getLast hne) :=
      List.getLast?_eq_getLast _ hne
    rw [h2, h3]
    constructor
    · intro h
      refine ⟨hne, ?_⟩
      intro hcon
      injection hcon with hcon
      rw [show (x :: xs).isEmpty = false from rfl, hcon] at h
      simp at h
    · intro hpair
      cases hx : ((x :: xs).getLast hne).isEmpty
      · simp [show (x :: xs).isEmpty = false from rfl, hx]
      · exfalso
        exact hpair.2 (by rw [List.isEmpty_iff.mp hx])

theorem synth_result (content new : List Char)
    (h : scanOpen (planLines content) 0 = none ∨
      ∃ s, scanOpen (planLines content) 0 = some (s, none)) :
    insert_into_inbox content new =
      joinLines (planLines content ++
        (if needs_sep (planLines content) then [[]] else []) ++
        [make_inbox_line (synth_width (planLines content)), new,
          List.replicate (synth_width (planLines content)) '~']) := by
  have heq : insert_into_inbox content new =
      joinLines (synth_lines (planLines content) new) := by
    rcases h with h | ⟨s, h⟩
    · exact insert_eq_synth_none content new h
    · exact insert_eq_synth_dangling content new s h
  rw [heq]
  unfold synth_lines
  rw [if_pad_eq]

/-- C3: when the file has no inbox open-marker line at all, the insert appends
a fresh inbox block at the end: every existing line is kept unchanged, a blank
separator is added exactly when the file is non-empty with a non-empty last
line, then an open marker of width `w` (the first line's byte length, at least
21, and exactly 21 for an empty file) built as left tildes, the word `inbox`,
then right tildes — the left pad being the smaller half of the remainder —
then the inserted line, then `w` tildes, all newline-joined with a trailing
newline. -/
theorem C3_synthesis_block (content new : List Char)
    (h : ∀ l ∈ planLines content, is_inbox_open l = false) :
    insert_into_inbox content new =
      joinLines (planLines content ++
        (if needs_sep (planLines content) then [[]] else []) ++
        [List.replicate ((synth_width (planLines content) - 5) / 2) '~' ++
            "inbox".toList ++
            List.replicate ((synth_width (planLines content) - 5) -
              (synth_width (planLines content) - 5) / 2) '~',
          new,
          List.replicate (synth_width (planLines content)) '~']) ∧
    (needs_sep (planLines content) = true ↔
      planLines content ≠ [] ∧ (planLines content).getLast? ≠ some []) ∧
    (planLines content = [] → synth_width (planLines content) = 21) ∧
    (∀ hd, (planLines content).head? = some hd →
      synth_width (planLines content) = Nat.max (byteLen hd) 21) ∧
    (synth_width (planLines content) - 5) / 2 ≤
      (synth_width (planLines content) - 5) -
        (synth_width (planLines content) - 5) / 2 ∧
    (insert_into_inbox content new).getLast? = some '\n' := by
  have hres := synth_result content new (Or.inl ((scanOpen_none_iff _ 0).mpr h))
  refine ⟨?_, needs_sep_iff _, ?_, ?_, by omega, ?_⟩
  · rw [hres, make_inbox_line_eq]
  · intro hemp
    unfold synth_width
    rw [hemp]
    rfl
  · intro hd hhd
    unfold synth_width
    rw [hhd]
  · rw [hres]
    exact joinLines_getLast _

/-- Witness for C3 on the file `"Hello\n"` with inserted line `"note"`. -/
theorem C3_synthesis_block_witness :
    insert_into_inbox "Hello\n".toList "note".toList =
      joinLines (planLines "Hello\n".toList ++
        (if needs_sep (planLines "Hello\n".toList) then [[]] else []) ++
        [List.replicate ((synth_width (planLines "Hello\n".toList) - 5) / 2) '~' ++
            "inbox".toList ++
            List.replicate ((synth_width (planLines "Hello\n".toList) - 5) -
              (synth_width (planLines "Hello\n".toList) - 5) / 2) '~',
          "note".toList,
          List.replicate (synth_width (planLines "Hello\n".toList)) '~']) ∧
    (needs_sep (planLines "Hello\n".toList) = true ↔
      planLines "Hello\n".toList ≠ [] ∧
        (planLines "Hello\n".toList).getLast? ≠ some []) ∧
    (planLines "Hello\n".toList = [] → synth_width (planLines "Hello\n".toList) = 21) ∧
    (∀ hd, (planLines "Hello\n".toList).head? = some hd →
      synth_width (planLines "Hello\n".toList) = Nat.max (byteLen hd) 21) ∧
    (synth_width (planLines "Hello\n".toList) - 5) / 2 ≤
      (synth_width (planLines "Hello\n".toList) - 5) -
        (synth_width (planLines "Hello\n".toList) - 5) / 2 ∧
    (insert_into_inbox "Hello\n".toList "note".toList).getLast? = some '\n' :=
  C3_synthesis_block "Hello\n".toList "note".toList (by decide)

/-- C9: a file with an open marker but no all-tilde line after any open marker
takes the synthesis path: the whole original line list — the dangling open
marker included — is kept unchanged as a prefix, and a complete fresh block
(optional blank separator, a newly centered open marker, the inserted line, a
new close line) is appended at the end. -/
theorem C9_dangling_open_synthesizes (content new : List Char)
    (hex : ∃ l ∈ planLines content, is_inbox_open l = true)
    (hnt : ∀ j, j < (planLines content).length → ∀ i, i < j →
      is_inbox_open ((planLines content).getD i []) = true →
      is_tilde_line ((planLines content).getD j []) = false) :
    insert_into_inbox content new =
      joinLines (planLines content ++
        (if needs_sep (planLines content) then [[]] else []) ++
        [make_inbox_line (synth_width (planLines content)), new,
          List.replicate (synth_width (planLines content)) '~']) ∧
    is_inbox_open (make_inbox_line (synth_width (planLines content))) = true ∧
    is_tilde_line (List.replicate (synth_width (planLines content)) '~') = true := by
  have hw := synth_width_ge (planLines content)
  refine ⟨?_, is_inbox_open_make _ (by omega), is_tilde_line_replicate _ (by omega)⟩
  cases hscan : scanOpen (planLines content) 0 with
  | none =>
    exfalso
    obtain ⟨l, hl, hlopen⟩ := hex
    have := (scanOpen_none_iff _ 0).mp hscan l hl
    rw [hlopen] at this
    cases this
  | some p =>
    obtain ⟨s, en⟩ := p
    cases en with
    | none => exact synth_result content new (Or.inr ⟨s, hscan⟩)
    | some e =>
      exfalso
      obtain ⟨A0, o, R, hdec, hs, ho, hA0, hen⟩ :=
        scanOpen_some_decomp (planLines content) 0 s (some e) hscan
      obtain ⟨M, c, B, hR, he, hct, hMnotilde⟩ :=
        scanClose_some_decomp R (s + 1) e hen.symm
      have hs' : s = A0.length := by omega
      have hshape : planLines content = (A0 ++ o :: M) ++ (c :: B) := by
        rw [hdec, hR]
        simp
      have hlen : e = (A0 ++ o :: M).length := by
        simp only [List.length_append, List.length_cons]
        omega
      have hopen_s : is_inbox_open ((planLines content).getD s []) = true := by
        rw [hdec, hs', getD_append_boundary]
        exact ho
      have hclose_e : is_tilde_line ((planLines content).getD e []) = true := by
        rw [hshape, hlen, getD_append_boundary]
        exact hct
      have hse : s < e := by omega
      have helen : e < (planLines content).length := by
        rw [hshape, hlen]
        simp
      have := hnt e helen s hse hopen_s
      rw [hclose_e] at this
      cases this

/-- Witness for C9 on a file whose open marker has no close line after it. -/
theorem C9_dangling_open_synthesizes_witness :
    insert_into_inbox "~~inbox~~\ntext\n".toList "x".toList =
      joinLines (planLines "~~inbox~~\ntext\n".toList ++
        (if needs_sep (planLines "~~inbox~~\ntext\n".toList) then [[]] else []) ++
        [make_inbox_line (synth_width (planLines "~~inbox~~\ntext\n".toList)),
          "x".toList,
          List.replicate (synth_width (planLines "~~inbox~~\ntext\n".toList)) '~']) ∧
    is_inbox_open (make_inbox_line
      (synth_width (planLines "~~inbox~~\ntext\n".toList))) = true ∧
    is_tilde_line (List.replicate
      (synth_width (planLines "~~inbox~~\ntext\n".toList)) '~') = true :=
  C9_dangling_open_synthesizes "~~inbox~~\ntext\n".toList "x".toList
    (by decide) (by decide)

/-! ### C6: structural recovery is safe -/

theorem joinLines_cons (l : List Char) (ls : List (List Char)) (h : ls ≠ []) :
    joinLines (l :: ls) = l ++ '\n' :: joinLines ls := by
  unfold joinLines
  rw [joinLinesAux_cons l ls h]
  simp

theorem mem_infix_joinLines (ls : List (List Char)) (l : List Char) (h : l ∈ ls) :
    l <:+: joinLines ls := by
  induction ls with
  | nil => cases h
  | cons x ls ih =>
    cases ls with
    | nil =>
      rw [List.mem_singleton] at h
      subst h
      exact ⟨[], ['\n'], rfl⟩
    | cons y ls2 =>
      rw [joinLines_cons x (y :: ls2) (by simp)]
      rcases List.mem_cons.mp h with h | h
      · subst h
        exact ⟨[], '\n' :: joinLines (y :: ls2), rfl⟩
      · obtain ⟨s, t, hst⟩ := ih h
        exact ⟨x ++ '\n' :: s, t, by rw [← hst]; simp⟩

theorem joinLinesAux_concat (X : List (List Char)) (c : List Char) (h : X ≠ []) :
    joinLinesAux (X ++ [c]) = joinLinesAux X ++ '\n' :: c := by
  induction X with
  | nil => exact absurd rfl h
  | cons x X ih =>
    cases X with
    | nil => rfl
    | cons y X2 =>
      rw [List.cons_append, joinLinesAux_cons x ((y :: X2) ++ [c]) (by simp),
        joinLinesAux_cons x (y :: X2) (by simp), ih (by simp)]
      simp

theorem splitNl_suffix (Z w : List Char) :
    ∃ P, P ≠ [] ∧ splitNl (Z ++ '\n' :: w) = P ++ splitNl w := by
  induction Z with
  | nil =>
    refine ⟨[[]], by simp, ?_⟩
    simp [splitNl]
  | cons z Z ih =>
    obtain ⟨P, hPne, hP⟩ := ih
    by_cases hz : z = '\n'
    · refine ⟨[] :: P, by simp, ?_⟩
      subst hz
      simp only [List.cons_append, splitNl, if_pos rfl]
      rw [show Z.append ('\n' :: w) = Z ++ '\n' :: w from rfl, hP]
      rfl
    · cases hPshape : P with
      | nil => exact absurd hPshape hPne
      | cons p P2 =>
        refine ⟨(z :: p) :: P2, by simp, ?_⟩
        simp only [List.cons_append, splitNl, if_neg hz]
        rw [show Z.append ('\n' :: w) = Z ++ '\n' :: w from rfl, hP, hPshape]
        cases P2 with
        | nil =>
          have : splitNl w ≠ [] := splitNl_ne_nil w
          cases hw : splitNl w with
          | nil => exact absurd hw this
          | cons q Q => simp
        | cons p2 P3 => simp

theorem planLines_last (Z c : List Char) (hcnl : '\n' ∉ c) :
    (planLines (Z ++ '\n' :: (c ++ ['\n']))).getLast? = some c := by
  obtain ⟨P, hPne, hP⟩ := splitNl_suffix Z (c ++ ['\n'])
  have hw : splitNl (c ++ ['\n']) = [c, []] := by
    have := splitNl_append_nl c [] hcnl
    simpa using this
  unfold planLines
  rw [hP, hw]
  have hre : P ++ [c, []] = (P ++ [c]) ++ [[]] := by simp
  rw [hre, if_pos (List.getLast?_concat _), List.dropLast_concat]
  exact List.getLast?_concat _

/-- C6: on any file with no open-marker line, the insert is a total function
whose result contains the inserted text verbatim as a contiguous substring and
whose final line is a non-empty all-tilde line. -/
theorem C6_recovery_safety (content new : List Char)
    (h : ∀ l ∈ planLines content, is_inbox_open l = false) :
    new <:+: insert_into_inbox content new ∧
    ∃ w, 0 < w ∧ is_tilde_line (List.replicate w '~') = true ∧
      (planLines (insert_into_inbox content new)).getLast? =
        some (List.replicate w '~') := by
  have hres := synth_result content new (Or.inl ((scanOpen_none_iff _ 0).mpr h))
  have hw21 := synth_width_ge (planLines content)
  constructor
  · rw [hres]
    apply mem_infix_joinLines
    simp
  · refine ⟨synth_width (planLines content), by omega,
      is_tilde_line_replicate _ (by omega), ?_⟩
    rw [hres]
    have hre : planLines content ++
        (if needs_sep (planLines content) then [[]] else []) ++
        [make_inbox_line (synth_width (planLines content)), new,
          List.replicate (synth_width (planLines content)) '~'] =
        (planLines content ++
          (if needs_sep (planLines content) then [[]] else []) ++
          [make_inbox_line (synth_width (planLines content)), new]) ++
        [List.replicate (synth_width (planLines content)) '~'] := by
      simp
    rw [hre]
    have hXne : planLines content ++
        (if needs_sep (planLines content) then [[]] else []) ++
        [make_inbox_line (synth_width (planLines content)), new] ≠ [] := by
      simp
    rw [show joinLines ((planLines content ++
        (if needs_sep (planLines content) then [[]] else []) ++
        [make_inbox_line (synth_width (planLines content)), new]) ++
        [List.replicate (synth_width (planLines content)) '~']) =
      joinLinesAux (planLines content ++
        (if needs_sep (planLines content) then [[]] else []) ++
        [make_inbox_line (synth_width (planLines content)), new]) ++
      '\n' :: (List.replicate (synth_width (planLines content)) '~' ++ ['\n']) by
        unfold joinLines
        rw [joinLinesAux_concat _ _ hXne]
        simp]
    exact planLines_last _ _ (no_nl_replicate_tilde _)

/-- Witness for C6 on a malformed file with a stray tilde line and binary-ish
text, inserting a line that itself contains a tilde run. -/
theorem C6_recovery_safety_witness :
    "x ~~~ y".toList <:+:
      insert_into_inbox "junk\n~~~~\n\u0000bin\n".toList "x ~~~ y".toList ∧
    ∃ w, 0 < w ∧ is_tilde_line (List.replicate w '~') = true ∧
      (planLines (insert_into_inbox "junk\n~~~~\n\u0000bin\n".toList
        "x ~~~ y".toList)).getLast? = some (List.replicate w '~') :=
  C6_recovery_safety "junk\n~~~~\n\u0000bin\n".toList "x ~~~ y".toList (by decide)

/-! ### C5: marker selection -/

theorem is_tilde_line_iff (l : List Char) :
    is_tilde_line l = true ↔ rsTrim l ≠ [] ∧ ∀ c ∈ rsTrim l, c = '~' := by
  unfold is_tilde_line
  simp only [Bool.and_eq_true, Bool.not_eq_true', List.all_eq_true, beq_iff_eq]
  constructor
  · intro ⟨h1, h2⟩
    exact ⟨by simpa [List.isEmpty_iff] using h1, h2⟩
  · intro ⟨h1, h2⟩
    refine ⟨?_, h2⟩
    cases hre : rsTrim l with
    | nil => exact absurd hre h1
    | cons c cs => simp

theorem is_inbox_open_iff (l : List Char) :
    is_inbox_open l = true ↔
      ∃ a b, 1 ≤ a ∧ 1 ≤ b ∧
        rsTrim l = List.replicate a '~' ++ "inbox".toList ++ List.replicate b '~' := by
  constructor
  · intro h
    unfold is_inbox_open at h
    simp only [Bool.and_eq_true, beq_iff_eq] at h
    obtain ⟨⟨⟨hhead, hlast⟩, hcont⟩, hfilt⟩ := h
    obtain ⟨u, v, huv⟩ := (contains_seq_iff _ _).mp hcont
    have h5 : ("inbox".toList).length = 5 := by decide
    have hinbox : "inbox".toList.filter (fun c => c != '~') = "inbox".toList := by decide
    have hfu : u.filter (fun c => c != '~') = [] ∧
        v.filter (fun c => c != '~') = [] := by
      rw [← huv] at hfilt
      simp only [List.filter_append, hinbox] at hfilt
      have hlen := congrArg List.length hfilt
      simp only [List.length_append, h5] at hlen
      have hu0 : (u.filter (fun c => c != '~')).length = 0 := by omega
      have hv0 : (v.filter (fun c => c != '~')).length = 0 := by omega
      exact ⟨List.eq_nil_of_length_eq_zero hu0, List.eq_nil_of_length_eq_zero hv0⟩
    have hu : ∀ c ∈ u, c = '~' := by
      intro c hc
      by_contra hne
      have : c ∈ u.filter (fun c => c != '~') :=
        List.mem_filter.mpr ⟨hc, by simp [hne]⟩
      rw [hfu.1] at this
      cases this
    have hv : ∀ c ∈ v, c = '~' := by
      intro c hc
      by_contra hne
      have : c ∈ v.filter (fun c => c != '~') :=
        List.mem_filter.mpr ⟨hc, by simp [hne]⟩
      rw [hfu.2] at this
      cases this
    have hune : u ≠ [] := by
      intro hcon
      subst hcon
      rw [← huv] at hhead
      simp [show "inbox".toList = 'i' :: "nbox".toList from rfl] at hhead
    have hvne : v ≠ [] := by
      intro hcon
      subst hcon
      rw [← huv] at hlast
      have : u ++ "inbox".toList ++ [] = (u ++ ['i', 'n', 'b', 'o']) ++ ['x'] := by
        simp [show "inbox".toList = ['i', 'n', 'b', 'o', 'x'] from rfl]
      rw [this, List.getLast?_concat] at hlast
      injection hlast with hx
      cases hx
    refine ⟨u.length, v.length, ?_, ?_, ?_⟩
    · cases u with
      | nil => exact absurd rfl hune
      | cons c cs => simp
    · cases v with
      | nil => exact absurd rfl hvne
      | cons c cs => simp
    · rw [← huv, List.eq_replicate_length.mpr hu, List.eq_replicate_length.mpr hv]
      simp
  · intro ⟨a, b, ha, hb, htr⟩
    unfold is_inbox_open
    simp only [Bool.and_eq_true]
    rw [htr]
    refine ⟨⟨⟨?_, ?_⟩, ?_⟩, ?_⟩
    · obtain ⟨a1, rfl⟩ : ∃ a1, a = a1 + 1 := ⟨a - 1, by omega⟩
      simp [List.replicate_succ]
    · obtain ⟨b1, rfl⟩ : ∃ b1, b = b1 + 1 := ⟨b - 1, by omega⟩
      rw [List.replicate_succ', ← List.append_assoc, List.getLast?_concat]
      simp
    · rw [contains_seq_iff]
      exact ⟨List.replicate a '~', List.replicate b '~', by simp⟩
    · simp only [List.append_assoc, List.filter_append, tilde_filter_nil]
      simp only [List.append_nil, List.nil_append]
      decide

/-- C5: when the scan selects an open index `s` and a close index `e`, `s` is
the first line satisfying the open-marker predicate, `e` is the first
subsequent line satisfying the all-tilde predicate, and `e` is strictly after
`s` — so an all-tilde line before any open marker is never selected.
Moreover the open-marker predicate holds exactly for the lines whose trimmed
form is one or more `~`, the literal `inbox`, then one or more `~` (equivalent
to the source's four-part test), the all-tilde predicate holds exactly for the
lines whose trimmed form is non-empty and all `~`, and the scan finds no open
marker precisely when no line satisfies the open-marker predicate, regardless
of tilde-only lines. -/
theorem C5_marker_selection (lines : List (List Char)) (s e : Nat)
    (h : scanOpen lines 0 = some (s, some e)) :
    (s < e ∧ e < lines.length ∧
      is_inbox_open (lines.getD s []) = true ∧
      is_tilde_line (lines.getD e []) = true ∧
      (∀ i, i < s → is_inbox_open (lines.getD i []) = false) ∧
      (∀ i, s < i → i < e → is_tilde_line (lines.getD i []) = false)) ∧
    (∀ l, is_inbox_open l = true ↔
      ∃ a b, 1 ≤ a ∧ 1 ≤ b ∧
        rsTrim l = List.replicate a '~' ++ "inbox".toList ++ List.replicate b '~') ∧
    (∀ l, is_tilde_line l = true ↔ rsTrim l ≠ [] ∧ ∀ c ∈ rsTrim l, c = '~') ∧
    (∀ ls2 : List (List Char), scanOpen ls2 0 = none ↔
      ∀ l ∈ ls2, is_inbox_open l = false) := by
  refine ⟨?_, is_inbox_open_iff, is_tilde_line_iff, fun ls2 => scanOpen_none_iff ls2 0⟩
  obtain ⟨A0, o, R, hdec, hs, ho, hA0, hen⟩ := scanOpen_some_decomp lines 0 s (some e) h
  obtain ⟨M, c, B, hR, he, hct, hMnotilde⟩ := scanClose_some_decomp R (s + 1) e hen.symm
  have hs' : s = A0.length := by omega
  have hshape : lines = (A0 ++ o :: M) ++ (c :: B) := by
    rw [hdec, hR]
    simp
  have hlen : e = (A0 ++ o :: M).length := by
    simp only [List.length_append, List.length_cons]
    omega
  refine ⟨by omega, ?_, ?_, ?_, ?_, ?_⟩
  · rw [hshape, hlen]
    simp
  · rw [hdec, hs', getD_append_boundary]
    exact ho
  · rw [hshape, hlen, getD_append_boundary]
    exact hct
  · intro i hi
    rw [hs'] at hi
    rw [hdec, getD_append_lt A0 (o :: R) i [] hi]
    exact hA0 _ (getD_mem A0 i [] hi)
  · intro i hsi hie
    have hform : lines = (A0 ++ [o]) ++ (M ++ c :: B) := by
      rw [hdec, hR]
      simp
    have hXlen : (A0 ++ [o]).length = s + 1 := by
      simp [hs']
    rw [hform, getD_append_ge _ _ i [] (by omega), hXlen]
    have hiM : i - (s + 1) < M.length := by omega
    rw [getD_append_lt M (c :: B) _ [] hiM]
    exact hMnotilde _ (getD_mem M _ [] hiM)

/-- Witness for C5 on a four-line file with markers at positions 1 and 3. -/
theorem C5_marker_selection_witness :
    1 < 3 ∧
    3 < ["Head".toList, "~~inbox~~".toList, "* x".toList, "~~~~".toList].length ∧
    is_inbox_open (["Head".toList, "~~inbox~~".toList, "* x".toList,
      "~~~~".toList].getD 1 []) = true ∧
    is_tilde_line (["Head".toList, "~~inbox~~".toList, "* x".toList,
      "~~~~".toList].getD 3 []) = true := by
  have h := C5_marker_selection
    ["Head".toList, "~~inbox~~".toList, "* x".toList, "~~~~".toList] 1 3 (by decide)
  exact ⟨h.1.1, h.1.2.1, h.1.2.2.1, h.1.2.2.2.1⟩

/-! ### C4, C7, C10: the effectful paths -/

/-- C4: on any failing step of the insert's atomic write path — unreadable
target, failed temp creation, write, sync, or rename — the target's prior
content is untouched, and no temp file remains after the call returns (none
existed before the call), on the failing and the successful exits alike; on
the successful path the rename transferred the temp onto the target and the
persisted guard's drop removes nothing. -/
theorem C4_atomic_write_cleanup (fs : FS) (new_line : List Char)
    (fail : FsStep → Bool) (hpre : fs.temp = none) :
    (insert_into_inbox_op fs new_line fail).2.temp = none ∧
    ((insert_into_inbox_op fs new_line fail).1 = Except.error () →
      (insert_into_inbox_op fs new_line fail).2.target = fs.target) ∧
    ((insert_into_inbox_op fs new_line fail).1 = Except.ok () →
      (insert_into_inbox_op fs new_line fail).2.target =
        some (insert_into_inbox (fs.target.getD []) new_line)) ∧
    (∀ fs3, guard_drop { persist := true } fs3 = fs3) := by
  refine ⟨?_, ?_, ?_, fun fs3 => rfl⟩ <;>
  · cases ht : fs.target with
    | none => simp [insert_into_inbox_op, ht, hpre]
    | some bytes =>
      cases hr : fail FsStep.read <;>
      cases hc : fail FsStep.create <;>
      cases hw : fail FsStep.write <;>
      cases hy : fail FsStep.sync <;>
      cases hn : fail FsStep.rename <;>
      simp [insert_into_inbox_op, atomic_write, guard_drop, ht, hr, hc, hw, hy, hn, hpre]

/-- Witness for C4: with a fault injected at the rename step, the call fails,
the original file content survives, and no temp file is left behind. -/
theorem C4_atomic_write_cleanup_witness :
    (insert_into_inbox_op ⟨some "x\n".toList, none⟩ "y".toList
      (fun st => st == FsStep.rename)).2.target = some "x\n".toList ∧
    (insert_into_inbox_op ⟨some "x\n".toList, none⟩ "y".toList
      (fun st => st == FsStep.rename)).2.temp = none := by
  have h := C4_atomic_write_cleanup ⟨some "x\n".toList, none⟩ "y".toList
    (fun st => st == FsStep.rename) rfl
  exact ⟨h.2.1 rfl, h.1⟩

/-- C7: `ensure_file_exists` succeeds untouched when the target exists;
refuses with the NotFound condition — distinct from the I/O error class — and
creates nothing when the target is absent and the date is past; and writes
the generated template through the temp-write-then-rename path when the
target is absent and the date is not past. -/
theorem C7_ensure_file_exists (fs : FS) (dt : Date) (is_past : Bool)
    (fail : FsStep → Bool) :
    (fs.target.isSome = true →
      ensure_file_exists fs dt is_past fail = (Except.ok (), fs)) ∧
    (fs.target = none → is_past = true →
      ensure_file_exists fs dt is_past fail = (Except.error PlanErrKind.notFound, fs) ∧
      PlanErrKind.notFound ≠ PlanErrKind.ioError) ∧
    (fs.target = none → is_past = false → (∀ st, fail st = false) →
      ensure_file_exists fs dt is_past fail =
        (Except.ok (), { target := some (generate_template dt), temp := none })) := by
  refine ⟨?_, ?_, ?_⟩
  · intro h
    simp [ensure_file_exists, h]
  · intro h hpast
    refine ⟨?_, by simp⟩
    simp [ensure_file_exists, h, hpast]
  · intro h hpast hok
    simp [ensure_file_exists, atomic_write, guard_drop, h, hpast, hok]

/-- Witness for C7: an absent file with a past date is refused with the
NotFound condition and nothing is created. -/
theorem C7_ensure_file_exists_witness :
    ensure_file_exists ⟨none, none⟩
        ⟨2026, 10, 12, by decide, by decide, by decide, by decide⟩ true
        (fun _ => false) =
      (Except.error PlanErrKind.notFound, ⟨none, none⟩) ∧
    PlanErrKind.notFound ≠ PlanErrKind.ioError :=
  (C7_ensure_file_exists ⟨none, none⟩
      ⟨2026, 10, 12, by decide, by decide, by decide, by decide⟩ true
      (fun _ => false)).2.1 rfl rfl

/-- C10: when the initial read fails — in particular when the target's bytes
are not valid UTF-8 — the call returns the read error with the filesystem
untouched: the target keeps its prior content and no temp file is ever
created. -/
theorem C10_invalid_utf8_read (fs : FS) (new_line : List Char)
    (fail : FsStep → Bool) (h : fail FsStep.read = true) :
    insert_into_inbox_op fs new_line fail = (Except.error (), fs) := by
  cases ht : fs.target with
  | none => simp [insert_into_inbox_op, ht]
  | some bytes => simp [insert_into_inbox_op, ht, h]

/-- Witness for C10: a failing read leaves the state exactly as it was. -/
theorem C10_invalid_utf8_read_witness :
    insert_into_inbox_op ⟨some "data\n".toList, none⟩ "z".toList
      (fun st => st == FsStep.read) =
      (Except.error (), ⟨some "data\n".toList, none⟩) :=
  C10_invalid_utf8_read ⟨some "data\n".toList, none⟩ "z".toList
    (fun st => st == FsStep.read) rfl

/-! ### C8: the template generator -/

theorem byteLen_append (a b : List Char) : byteLen (a ++ b) = byteLen a + byteLen b := by
  unfold byteLen
  rw [List.map_append, List.sum_append]

theorem byteLen_eq_length (l : List Char) (h : ∀ c ∈ l, c.utf8Size = 1) :
    byteLen l = l.length := by
  induction l with
  | nil => rfl
  | cons c cs ih =>
    unfold byteLen at ih ⊢
    simp only [List.map_cons, List.sum_cons, List.length_cons]
    rw [h c (by simp), ih (fun x hx => h x (by simp [hx]))]
    omega

theorem digitChar_ok (n : Nat) : (digitChar n).utf8Size = 1 ∧ digitChar n ≠ '\n' := by
  have hm : n % 10 < 10 := Nat.mod_lt _ (by omega)
  have hall : ∀ m, m < 10 → (Char.ofNat (48 + m)).utf8Size = 1 ∧
      Char.ofNat (48 + m) ≠ '\n' := by decide
  exact hall (n % 10) hm

theorem natDigitsCore_ok (fuel : Nat) : ∀ (n : Nat) (acc : List Char),
    (∀ c ∈ acc, c.utf8Size = 1 ∧ c ≠ '\n') →
    ∀ c ∈ natDigitsCore fuel n acc, c.utf8Size = 1 ∧ c ≠ '\n' := by
  induction fuel with
  | zero => intro n acc hacc; exact hacc
  | succ fuel ih =>
    intro n acc hacc c hc
    unfold natDigitsCore at hc
    split at hc
    · rcases List.mem_cons.mp hc with h | h
      · rw [h]; exact digitChar_ok n
      · exact hacc c h
    · refine ih (n / 10) (digitChar (n % 10) :: acc) ?_ c hc
      intro x hx
      rcases List.mem_cons.mp hx with h | h
      · rw [h]; exact digitChar_ok (n % 10)
      · exact hacc x h

theorem natDigits_ok (n : Nat) : ∀ c ∈ natDigits n, c.utf8Size = 1 ∧ c ≠ '\n' :=
  natDigitsCore_ok (n + 1) n [] (by simp)

theorem getD_of_le_length (l : List (List Char)) (i : Nat) (d : List Char)
    (h : l.length ≤ i) : l.getD i d = d := by
  simp [List.getD_eq_getElem?_getD, List.getElem?_eq_none h]

theorem monthAbbr_ok (m : Nat) : ∀ c ∈ monthAbbr m, c.utf8Size = 1 ∧ c ≠ '\n' := by
  have hall : ∀ l ∈ (["Jan", "Feb", "Mar", "Apr", "May", "Jun",
      "Jul", "Aug", "Sep", "Oct", "Nov", "Dec"].map String.toList),
      ∀ c ∈ l, c.utf8Size = 1 ∧ c ≠ '\n' := by decide
  unfold monthAbbr
  by_cases h : m - 1 < (["Jan", "Feb", "Mar", "Apr", "May", "Jun",
      "Jul", "Aug", "Sep", "Oct", "Nov", "Dec"].map String.toList).length
  · exact hall _ (getD_mem _ (m - 1) [] h)
  · rw [getD_of_le_length _ _ _ (Nat.le_of_not_lt h)]
    simp

theorem weekdayName_ok (w : Nat) : ∀ c ∈ weekdayName w, c.utf8Size = 1 ∧ c ≠ '\n' := by
  have hall : ∀ l ∈ (["Sunday", "Monday", "Tuesday", "Wednesday", "Thursday", "Friday",
      "Saturday"].map String.toList), ∀ c ∈ l, c.utf8Size = 1 ∧ c ≠ '\n' := by decide
  unfold weekdayName
  by_cases h : w < (["Sunday", "Monday", "Tuesday", "Wednesday", "Thursday", "Friday",
      "Saturday"].map String.toList).length
  · exact hall _ (getD_mem _ w [] h)
  · rw [getD_of_le_length _ _ _ (Nat.le_of_not_lt h)]
    simp

theorem formatLongDate_ok (dt : Date) :
    ∀ c ∈ formatLongDate dt, c.utf8Size = 1 ∧ c ≠ '\n' := by
  unfold formatLongDate yearStr dayStr
  intro c hc
  simp only [List.append_assoc, List.mem_append] at hc
  rcases hc with hc | hc | hc | hc | hc | hc | hc | hc
  · rw [List.eq_of_mem_replicate hc]; decide
  · exact natDigits_ok dt.year c hc
  · fin_cases hc <;> decide
  · exact monthAbbr_ok dt.month c hc
  · fin_cases hc <;> decide
  · split at hc
    · rcases List.mem_cons.mp hc with h | h
      · rw [h]; decide
      · rw [List.mem_singleton.mp h]; exact digitChar_ok dt.day
    · exact natDigits_ok dt.day c hc
  · fin_cases hc <;> decide
  · exact weekdayName_ok _ c hc

theorem formatLongDate_len (dt : Date) : 21 ≤ (formatLongDate dt).length := by
  have hmonth : ∀ m, m < 13 → 1 ≤ m → (monthAbbr m).length = 3 := by decide
  have hday : ∀ d, d < 32 → 1 ≤ d → 2 ≤ (dayStr d).length := by decide
  have hweek : ∀ w, w < 7 → 6 ≤ (weekdayName w).length := by decide
  have hwlt : weekdayIdx dt.year dt.month dt.day < 7 := by
    unfold weekdayIdx
    exact Nat.mod_lt _ (by omega)
  unfold formatLongDate yearStr
  simp only [List.length_append]
  have h1 := hmonth dt.month (by have := dt.month_le; omega) dt.month_ge
  have h2 := hday dt.day (by have := dt.day_le; omega) dt.day_ge
  have h3 := hweek _ hwlt
  have h4 : (", ".toList).length = 2 := by decide
  have h5 : (" ".toList).length = 1 := by decide
  have h6 : (" - ".toList).length = 3 := by decide
  simp only [List.length_replicate] at *
  omega

theorem byteLen_formatLongDate (dt : Date) :
    byteLen (formatLongDate dt) = (formatLongDate dt).length :=
  byteLen_eq_length _ (fun c hc => (formatLongDate_ok dt c hc).1)

/-- C8: the template is a pure function of the date producing exactly five
newline-terminated lines: the long-form date header, an open marker of the
header's exact byte width `N` made of `(N - 5) / 2` left tildes, the word
`inbox`, and `N - 5 - (N - 5) / 2` right tildes, a close line of `N` tildes,
a blank line, and `---`; the header contains no newline, the open-marker
line's width equals the header's width, and the left pad is the smaller
half. -/
theorem C8_generate_template (dt : Date) :
    ∃ N, N = byteLen (formatLongDate dt) ∧ 21 ≤ N ∧
      generate_template dt =
        formatLongDate dt ++ '\n' ::
          ((List.replicate ((N - 5) / 2) '~' ++ "inbox".toList ++
            List.replicate (N - 5 - (N - 5) / 2) '~') ++ '\n' ::
          (List.replicate N '~' ++ '\n' :: '\n' :: "---\n".toList)) ∧
      '\n' ∉ formatLongDate dt ∧
      byteLen (List.replicate ((N - 5) / 2) '~' ++ "inbox".toList ++
        List.replicate (N - 5 - (N - 5) / 2) '~') = N ∧
      (N - 5) / 2 ≤ N - 5 - (N - 5) / 2 := by
  refine ⟨byteLen (formatLongDate dt), rfl, ?_, ?_, ?_, ?_, by omega⟩
  · rw [byteLen_formatLongDate]
    exact formatLongDate_len dt
  · simp only [generate_template]
    rw [make_inbox_line_eq]
    simp [List.append_assoc]
  · intro h
    exact (formatLongDate_ok dt '\n' h).2 rfl
  · have h21 : 21 ≤ byteLen (formatLongDate dt) := by
      rw [byteLen_formatLongDate]
      exact formatLongDate_len dt
    rw [byteLen_append, byteLen_append]
    have hrep : ∀ k, byteLen (List.replicate k '~') = k := by
      intro k
      rw [byteLen_eq_length _ (fun c hc => by rw [List.eq_of_mem_replicate hc]; decide)]
      exact List.length_replicate k '~'
    rw [hrep, hrep, show byteLen "inbox".toList = 5 from rfl]
    omega

/-- Witness for C8 at the concrete date 2026-10-12. -/
theorem C8_generate_template_witness :
    ∃ N, N = byteLen (formatLongDate
        ⟨2026, 10, 12, by decide, by decide, by decide, by decide⟩) ∧ 21 ≤ N ∧
      generate_template ⟨2026, 10, 12, by decide, by decide, by decide, by decide⟩ =
        formatLongDate ⟨2026, 10, 12, by decide, by decide, by decide, by decide⟩ ++ '\n' ::
          ((List.replicate ((N - 5) / 2) '~' ++ "inbox".toList ++
            List.replicate (N - 5 - (N - 5) / 2) '~') ++ '\n' ::
          (List.replicate N '~' ++ '\n' :: '\n' :: "---\n".toList)) ∧
      '\n' ∉ formatLongDate ⟨2026, 10, 12, by decide, by decide, by decide, by decide⟩ ∧
      byteLen (List.replicate ((N - 5) / 2) '~' ++ "inbox".toList ++
        List.replicate (N - 5 - (N - 5) / 2) '~') = N ∧
      (N - 5) / 2 ≤ N - 5 - (N - 5) / 2 :=
  C8_generate_template ⟨2026, 10, 12, by decide, by decide, by decide, by decide⟩

end Plan
